import Mathlib

/-!
Shallow embedding of the life-rs repository core data structures.

Embedded source files:
  * `src/engine/src/board/vect/symvec/mod.rs` — the `SymVec` container
    (a vector extensible in both directions, indexed by signed integers,
    represented by two independent growable vectors `vec_neg`/`vec_pos`).
  * `src/src/board.rs` — `Cell`, `Coord`, `Board` (a `SymVec` of `SymVec<Cell>`
    rows plus a `HashSet<Coord>` of occupied coordinates) and the board
    iterator `BoardIntoIterator`.

Modelling conventions:
  * Rust `Vec<T>` is a Lean `List`; `Vec::push` appends at the end.
  * Rust `isize`/`usize` are `Int`/`Nat` (the source never relies on
    machine-width overflow in these functions).
  * Rust `HashSet<Coord>` is a `Finset Coord` (the claims are about set
    membership only, never about hashing or iteration order of the set).
  * A panicking operation (`Index`/`IndexMut` out of range) is modelled by
    an `Option` result, `none` standing for the panic.
  * The in-place mutation `self.cells[row]` update loops of `Board` are
    modelled by reading the row, transforming it, and writing it back with
    `SymVec.set`, which is extensionally the effect of the Rust loop.
-/

/-- Cell state, from `src/src/board.rs`: `enum Cell { Empty, Occupied }`. -/
inductive Cell where
  | Empty
  | Occupied
deriving DecidableEq, Repr

/-- Coordinate, from `src/src/board.rs`: `struct Coord { col: isize, row: isize }`. -/
structure Coord where
  col : Int
  row : Int
deriving DecidableEq, Repr

/-- The `SymVec` container from `src/engine/src/board/vect/symvec/mod.rs`:
two independent vectors, `vec_neg` holding the elements of negative logical
indices (physical slot 0 is logical index -1) and `vec_pos` holding the
elements of non-negative logical indices. -/
structure SymVec (α : Type) where
  vec_neg : List α
  vec_pos : List α
deriving DecidableEq, Repr

namespace SymVec

variable {α : Type}

/-- `SymVec::new()`. -/
def new : SymVec α := ⟨[], []⟩

/-- `SymVec::push_front`: `self.vec_pos.push(e)`. -/
def push_front (v : SymVec α) (e : α) : SymVec α :=
  { v with vec_pos := v.vec_pos ++ [e] }

/-- `SymVec::push_back`: `self.vec_neg.push(e)`. -/
def push_back (v : SymVec α) (e : α) : SymVec α :=
  { v with vec_neg := v.vec_neg ++ [e] }

/-- `SymVec::len_pos`. -/
def len_pos (v : SymVec α) : Nat := v.vec_pos.length

/-- `SymVec::len_neg`. -/
def len_neg (v : SymVec α) : Nat := v.vec_neg.length

/-- `SymVec::len`: `self.len_pos() + self.len_neg()`. -/
def len (v : SymVec α) : Nat := v.len_pos + v.len_neg

/-- The `Index<isize>` implementation. `idx < 0` reads `vec_neg[-(1+idx)]`,
otherwise `vec_pos[idx]`; an out-of-range access panics, modelled as `none`. -/
def get (v : SymVec α) (idx : Int) : Option α :=
  if idx < 0 then v.vec_neg[(-(1 + idx)).toNat]? else v.vec_pos[idx.toNat]?

/-- The `IndexMut<isize>` implementation used as `v[idx] = e`. The source
panics out of range; every use in `Board` is preceded by `ensure_cell`, so
the write is always in range there (proved below); out of range this model
leaves the vector unchanged. -/
def set (v : SymVec α) (idx : Int) (e : α) : SymVec α :=
  if idx < 0 then { v with vec_neg := v.vec_neg.set (-(1 + idx)).toNat e }
  else { v with vec_pos := v.vec_pos.set idx.toNat e }

/-- `SymVec::need_extend_pos`: `idx >= self.len_pos() as isize`. -/
def need_extend_pos (v : SymVec α) (idx : Int) : Bool :=
  decide ((v.len_pos : Int) ≤ idx)

/-- `SymVec::need_extend_neg`: `-idx >= self.len_neg() as isize + 1`. -/
def need_extend_neg (v : SymVec α) (idx : Int) : Bool :=
  decide ((v.len_neg : Int) + 1 ≤ -idx)

/-- `SymVec::is_available`. -/
def is_available (v : SymVec α) (idx : Int) : Bool :=
  if 0 ≤ idx then ! v.need_extend_pos idx else ! v.need_extend_neg idx

/-- The loop `while v.need_extend_pos(i) { v.push_front(e) }` from
`Board::ensure_cell` (the pushed element is constant: `SymVec::new()` for
rows, `Cell::Empty` for cells). -/
def extendPosLoop (e : α) (v : SymVec α) (i : Int) : SymVec α :=
  if h : v.need_extend_pos i = true then extendPosLoop e (v.push_front e) i else v
termination_by (i + 1 - (v.len_pos : Int)).toNat
decreasing_by
  simp only [need_extend_pos, len_pos, decide_eq_true_eq] at h
  simp only [push_front, len_pos, List.length_append, List.length_cons,
    List.length_nil]
  omega

/-- The loop `while v.need_extend_neg(i) { v.push_back(e) }` from
`Board::ensure_cell`. -/
def extendNegLoop (e : α) (v : SymVec α) (i : Int) : SymVec α :=
  if h : v.need_extend_neg i = true then extendNegLoop e (v.push_back e) i else v
termination_by (-i - (v.len_neg : Int)).toNat
decreasing_by
  simp only [need_extend_neg, len_neg, decide_eq_true_eq] at h
  simp only [push_back, len_neg, List.length_append, List.length_cons,
    List.length_nil]
  omega

/-- The `for` loop of `Board::allocate` pushing `n` copies of a constant
element with `push_front`. -/
def pushFrontN (v : SymVec α) (e : α) : Nat → SymVec α
  | 0 => v
  | n + 1 => (pushFrontN v e n).push_front e

end SymVec

/-- Operations applied to a `SymVec` (for stating properties about arbitrary
sequences of `push_front`/`push_back` calls). -/
inductive SOp (α : Type) where
  | pfront (a : α)
  | pback (a : α)
deriving DecidableEq, Repr

namespace SOp

variable {α : Type}

/-- Whether the operation is a `push_front`. -/
def isPF : SOp α → Bool
  | .pfront _ => true
  | .pback _ => false

/-- The value carried by the operation. -/
def val : SOp α → α
  | .pfront a => a
  | .pback a => a

/-- Whether the operation is a `push_back`. -/
def isPB : SOp α → Bool
  | .pfront _ => false
  | .pback _ => true

end SOp

/-- Run one `SymVec` operation. -/
def applySOp {α : Type} (v : SymVec α) : SOp α → SymVec α
  | .pfront a => v.push_front a
  | .pback a => v.push_back a

/-- Run a sequence of `SymVec` operations in order. -/
def applySOps {α : Type} (v : SymVec α) (ops : List (SOp α)) : SymVec α :=
  ops.foldl applySOp v

/-- The board from `src/src/board.rs`: a `SymVec` of rows (each a
`SymVec<Cell>`) together with the occupied-coordinate set. -/
structure Board where
  cells : SymVec (SymVec Cell)
  occupied : Finset Coord
deriving DecidableEq

namespace Board

/-- `Board::allocate`: builds `rows` rows of `cols` `Empty` cells, all pushed
with `push_front`. -/
def allocate (cols rows : Nat) : SymVec (SymVec Cell) :=
  SymVec.pushFrontN SymVec.new (SymVec.pushFrontN SymVec.new Cell.Empty cols) rows

/-- `Board::new`: minimum board size is 4x4. -/
def new (width height : Nat) : Board :=
  { cells := allocate (max width 4) (max height 4), occupied := ∅ }

/-- `Board::ensure_cell`: extend the row dimension (positive or negative side
according to the sign of `row`), then the column dimension of the addressed
row. The Rust `while` loops on `self.cells` and on `self.cells[row]` are the
`extendPosLoop`/`extendNegLoop` functions; the in-place update of
`self.cells[row]` is modelled as read-transform-write. -/
def ensure_cell (b : Board) (col row : Int) : Board :=
  let cells1 :=
    if 0 ≤ row then SymVec.extendPosLoop SymVec.new b.cells row
    else SymVec.extendNegLoop SymVec.new b.cells row
  let rw := (cells1.get row).getD SymVec.new
  let rw1 :=
    if 0 ≤ col then SymVec.extendPosLoop Cell.Empty rw col
    else SymVec.extendNegLoop Cell.Empty rw col
  { b with cells := cells1.set row rw1 }

/-- The write `self.cells[row][col] = s` (always performed right after
`ensure_cell`, hence in range). -/
def writeCell (b : Board) (col row : Int) (s : Cell) : Board :=
  let rw := (b.cells.get row).getD SymVec.new
  { b with cells := b.cells.set row (rw.set col s) }

/-- `Board::born_at`. -/
def born_at (b : Board) (col row : Int) : Board :=
  let b1 := b.ensure_cell col row
  let b2 := b1.writeCell col row Cell.Occupied
  { b2 with occupied := insert ⟨col, row⟩ b2.occupied }

/-- `Board::kill_at`. -/
def kill_at (b : Board) (col row : Int) : Board :=
  let b1 := b.ensure_cell col row
  let b2 := b1.writeCell col row Cell.Empty
  { b2 with occupied := b2.occupied.erase ⟨col, row⟩ }

/-- `Board::get_cell`: `if self.cells.is_available(row) &&
self.cells[row].is_available(col) { self.cells[row][col] } else { Empty }`.
Availability guarantees the two raw index reads are in range, so the `getD`
never supplies its default (this is claim C10, proved below against the
panic-tracking variant `get_cellChk`). -/
def get_cell (b : Board) (col row : Int) : Cell :=
  if b.cells.is_available row then
    match b.cells.get row with
    | some rw => if rw.is_available col then (rw.get col).getD Cell.Empty else Cell.Empty
    | none => Cell.Empty
  else Cell.Empty

/-- `Board::get_cell` with panics tracked: `none` is a panic of a raw index
read. Mirrors the short-circuit evaluation of the Rust `&&`. -/
def get_cellChk (b : Board) (col row : Int) : Option Cell :=
  if b.cells.is_available row then
    match b.cells.get row with
    | some rw => if rw.is_available col then rw.get col else some Cell.Empty
    | none => none
  else some Cell.Empty

/-- `Board::is_alive`: `self.get_cell(col, row) != Cell::Empty`. -/
def is_alive (b : Board) (col row : Int) : Bool :=
  decide (b.get_cell col row ≠ Cell.Empty)

/-- `Board::is_alive` with panics tracked (a panic in `get_cell` propagates). -/
def is_aliveChk (b : Board) (col row : Int) : Option Bool :=
  (b.get_cellChk col row).map (fun c => decide (c ≠ Cell.Empty))

/-- `Board::get_occupied` (as the set of coordinates it enumerates; the Rust
function collects the `HashSet` into a `Vec` in unspecified order). -/
def get_occupied (b : Board) : Finset Coord := b.occupied

/-- Whether the cell is physically allocated: the row is available and the
column is available within that row. -/
def cellAllocated (b : Board) (col row : Int) : Bool :=
  b.cells.is_available row &&
    (match b.cells.get row with
     | some rw => rw.is_available col
     | none => false)

/-- The number of physically allocated cells of the board. -/
def allocCount (b : Board) : Nat :=
  (b.cells.vec_neg.map SymVec.len).sum + (b.cells.vec_pos.map SymVec.len).sum

end Board

/-- Operations applied to a `Board` (for stating properties about arbitrary
sequences of `born_at`/`kill_at` calls). -/
inductive BOp where
  | born (col row : Int)
  | kill (col row : Int)
deriving DecidableEq, Repr

/-- Run one board operation. -/
def applyBOp (b : Board) : BOp → Board
  | .born c r => b.born_at c r
  | .kill c r => b.kill_at c r

/-- Run a sequence of board operations in order. -/
def applyBOps (b : Board) (ops : List BOp) : Board :=
  ops.foldl applyBOp b

/-- State of `BoardIntoIterator` from `src/src/board.rs`: the current row and
column counters plus the internal index of the row's `SymVecIntoIterator`
(the iterator's `symvec` field is always `cells[row]`, recovered from `row`). -/
structure BIter where
  row : Int
  col : Int
  idx : Int
deriving DecidableEq, Repr

namespace Board

/-- `IntoIterator for &Board`: `row = cells.len_neg()`, `col =
cells[row].len_neg() - 1`, and a fresh `SymVecIntoIterator` over `cells[row]`
(whose internal index starts at `-(len_neg) - 1`). The two reads of
`cells[row]` panic when `row` is not available, modelled as `none`. -/
def iterInit (b : Board) : Option BIter :=
  let row : Int := (b.cells.len_neg : Int)
  match b.cells.get row with
  | none => none
  | some rw =>
    some { row := row, col := (rw.len_neg : Int) - 1, idx := -(rw.len_neg : Int) - 1 }

/-- One `BoardIntoIterator::next` step. The inner `cell_iter.next()` advances
`idx` and yields while `idx < len_pos` of the current row; on exhaustion the
iterator moves to the next row (if any), builds a fresh row iterator, advances
it once discarding the result, and yields `(col, row)` with `col =
cells[row].len_neg()` unconditionally. Row reads are in range here because
`row` only moves upward from `iterInit`'s starting row through `len_pos - 1`
(concrete runs below only ever read available rows), so `getD` is never the
default on those runs. -/
def iterNext (b : Board) (s : BIter) : Option ((Coord × Bool) × BIter) :=
  let rw := (b.cells.get s.row).getD SymVec.new
  let idx1 := s.idx + 1
  if idx1 < (rw.len_pos : Int) then
    let col1 := s.col + 1
    some ((⟨col1, s.row⟩, b.is_alive col1 s.row), { s with col := col1, idx := idx1 })
  else
    if s.row < (b.cells.len_pos : Int) - 1 then
      let row1 := s.row + 1
      let rw1 := (b.cells.get row1).getD SymVec.new
      let col1 : Int := (rw1.len_neg : Int)
      some ((⟨col1, row1⟩, b.is_alive col1 row1),
        { row := row1, col := col1, idx := -(rw1.len_neg : Int) - 1 + 1 })
    else none

/-- Collect the items produced by the board iterator, with explicit fuel
bounding the number of `next` calls. -/
def iterRun (b : Board) (s : BIter) : Nat → List (Coord × Bool)
  | 0 => []
  | n + 1 =>
    match iterNext b s with
    | none => []
    | some (p, s1) => p :: iterRun b s1 n

/-- The full item list of `(&board).into_iter()`, given fuel. -/
def iterList (b : Board) (fuel : Nat) : List (Coord × Bool) :=
  match iterInit b with
  | none => []
  | some s => iterRun b s fuel

end Board

/-- A run of `push_front` calls (for the growth-predicate property). -/
def pushFrontList {α : Type} (v : SymVec α) (es : List α) : SymVec α :=
  es.foldl SymVec.push_front v

/-- A run of `push_back` calls (for the growth-predicate property). -/
def pushBackList {α : Type} (v : SymVec α) (es : List α) : SymVec α :=
  es.foldl SymVec.push_back v

namespace SymVec

variable {α : Type}

theorem len_pos_push_front (v : SymVec α) (e : α) :
    (v.push_front e).len_pos = v.len_pos + 1 := by
  simp [push_front, len_pos]

theorem len_neg_push_front (v : SymVec α) (e : α) :
    (v.push_front e).len_neg = v.len_neg := rfl

theorem len_pos_push_back (v : SymVec α) (e : α) :
    (v.push_back e).len_pos = v.len_pos := rfl

theorem len_neg_push_back (v : SymVec α) (e : α) :
    (v.push_back e).len_neg = v.len_neg + 1 := by
  simp [push_back, len_neg]

theorem getElem?_isSome_iff {β : Type} (l : List β) (n : Nat) :
    (l[n]?).isSome = true ↔ n < l.length := by
  rw [Option.isSome_iff_exists]
  constructor
  · rintro ⟨a, ha⟩
    obtain ⟨h, -⟩ := List.getElem?_eq_some_iff.mp ha
    exact h
  · intro h
    exact ⟨_, List.getElem?_eq_getElem h⟩

theorem get_push_front (v : SymVec α) (e : α) (i : Int) :
    (v.push_front e).get i = if i = (v.len_pos : Int) then some e else v.get i := by
  unfold get push_front len_pos
  by_cases hi : i < 0
  · have hne : ¬ i = (v.vec_pos.length : Int) := by omega
    simp only [hi, if_true, hne, if_false]
  · simp only [hi, if_false]
    rw [List.getElem?_append]
    by_cases he : i = (v.vec_pos.length : Int)
    · have h1 : ¬ i.toNat < v.vec_pos.length := by omega
      have h2 : i.toNat - v.vec_pos.length = 0 := by omega
      rw [if_neg h1, h2, if_pos he]
      rfl
    · simp only [he, if_false]
      by_cases hlt : i.toNat < v.vec_pos.length
      · simp only [hlt, if_true]
      · simp only [hlt, if_false]
        have h3 : v.vec_pos[i.toNat]? = none := List.getElem?_eq_none (by omega)
        have h4 : ([e] : List α)[i.toNat - v.vec_pos.length]? = none := by
          apply List.getElem?_eq_none
          simp only [List.length_cons, List.length_nil]
          omega
        rw [h3, h4]

theorem get_push_back (v : SymVec α) (e : α) (i : Int) :
    (v.push_back e).get i =
      if i = -((v.len_neg : Int) + 1) then some e else v.get i := by
  unfold get push_back len_neg
  by_cases hi : i < 0
  · simp only [hi, if_true]
    rw [List.getElem?_append]
    by_cases he : i = -((v.vec_neg.length : Int) + 1)
    · have h1 : ¬ (-(1 + i)).toNat < v.vec_neg.length := by omega
      have h2 : (-(1 + i)).toNat - v.vec_neg.length = 0 := by omega
      rw [if_neg h1, h2, if_pos he]
      rfl
    · simp only [he, if_false]
      by_cases hlt : (-(1 + i)).toNat < v.vec_neg.length
      · simp only [hlt, if_true]
      · simp only [hlt, if_false]
        have h3 : v.vec_neg[(-(1 + i)).toNat]? = none := List.getElem?_eq_none (by omega)
        have h4 : ([e] : List α)[(-(1 + i)).toNat - v.vec_neg.length]? = none := by
          apply List.getElem?_eq_none
          simp only [List.length_cons, List.length_nil]
          omega
        rw [h3, h4]
  · have hne : ¬ i = -((v.vec_neg.length : Int) + 1) := by omega
    simp only [hi, if_false, hne]

theorem len_pos_set (v : SymVec α) (i : Int) (e : α) :
    (v.set i e).len_pos = v.len_pos := by
  unfold set len_pos
  by_cases hi : i < 0 <;> simp [hi]

theorem len_neg_set (v : SymVec α) (i : Int) (e : α) :
    (v.set i e).len_neg = v.len_neg := by
  unfold set len_neg
  by_cases hi : i < 0 <;> simp [hi]

theorem get_set_ne (v : SymVec α) (i j : Int) (e : α) (h : j ≠ i) :
    (v.set i e).get j = v.get j := by
  unfold set get
  by_cases hi : i < 0
  · by_cases hj : j < 0
    · simp only [hi, hj, if_true]
      have hne : (-(1 + i)).toNat ≠ (-(1 + j)).toNat := by omega
      rw [List.getElem?_set_ne hne]
    · simp only [hi, hj, if_true, if_false]
  · by_cases hj : j < 0
    · simp only [hi, hj, if_true, if_false]
    · simp only [hi, hj, if_false]
      have hne : i.toNat ≠ j.toNat := by omega
      rw [List.getElem?_set_ne hne]

theorem get_set_self (v : SymVec α) (i : Int) (e : α) (h : (v.get i).isSome) :
    (v.set i e).get i = some e := by
  unfold set get
  unfold get at h
  by_cases hi : i < 0 <;> simp only [hi, if_true, if_false] at h ⊢
  · have hlt : (-(1 + i)).toNat < v.vec_neg.length := (getElem?_isSome_iff _ _).mp h
    exact List.getElem?_set_self hlt
  · have hlt : i.toNat < v.vec_pos.length := (getElem?_isSome_iff _ _).mp h
    exact List.getElem?_set_self hlt

theorem set_get_self (v : SymVec α) (i : Int) (a : α) (h : v.get i = some a) :
    v.set i a = v := by
  have hset : ∀ (l : List α) (n : Nat), l[n]? = some a → l.set n a = l := by
    intro l
    induction l with
    | nil => intro n hn; simp at hn
    | cons x xs ih =>
      intro n hn
      cases n with
      | zero => simp at hn; simp [List.set, hn]
      | succ m => simp at hn; simp [List.set, ih m hn]
  unfold set
  unfold get at h
  by_cases hi : i < 0 <;> simp only [hi, if_true, if_false] at h ⊢
  · rw [hset _ _ h]
  · rw [hset _ _ h]

theorem set_set (v : SymVec α) (i : Int) (e₁ e₂ : α) :
    (v.set i e₁).set i e₂ = v.set i e₂ := by
  unfold set
  by_cases hi : i < 0 <;> simp [hi, List.set_set]

theorem get_new (i : Int) : (new : SymVec α).get i = none := by
  unfold get new
  by_cases hi : i < 0 <;> simp [hi]

theorem is_available_iff (v : SymVec α) (i : Int) :
    v.is_available i = true ↔ (v.get i).isSome = true := by
  unfold is_available need_extend_pos need_extend_neg get
  by_cases hi : 0 ≤ i
  · have hi2 : ¬ i < 0 := by omega
    rw [if_pos hi, if_neg hi2, getElem?_isSome_iff]
    simp only [Bool.not_eq_true', decide_eq_false_iff_not, not_le, len_pos]
    omega
  · have hi2 : i < 0 := by omega
    rw [if_neg hi, if_pos hi2, getElem?_isSome_iff]
    simp only [Bool.not_eq_true', decide_eq_false_iff_not, not_le, len_neg]
    omega

theorem is_available_false (v : SymVec α) (i : Int) (h : v.is_available i = false) :
    v.get i = none := by
  by_cases hs : (v.get i).isSome = true
  · rw [(is_available_iff v i).mpr hs] at h
    cases h
  · simpa using hs

theorem extendPosLoop_eq (e : α) (v : SymVec α) (i : Int) :
    extendPosLoop e v i =
      ⟨v.vec_neg, v.vec_pos ++ List.replicate (i + 1 - (v.len_pos : Int)).toNat e⟩ := by
  suffices hsuf : ∀ (n : Nat) (w : SymVec α), (i + 1 - (w.len_pos : Int)).toNat = n →
      extendPosLoop e w i = ⟨w.vec_neg, w.vec_pos ++ List.replicate n e⟩ by
    exact hsuf _ v rfl
  intro n
  induction n with
  | zero =>
    intro w hn
    rw [extendPosLoop, dif_neg]
    · simp
    · simp only [need_extend_pos, decide_eq_true_eq]
      omega
  | succ n ih =>
    intro w hn
    have hle : (w.len_pos : Int) ≤ i := by omega
    rw [extendPosLoop,
      dif_pos (by simp only [need_extend_pos, decide_eq_true_eq]; exact hle)]
    rw [ih (w.push_front e) (by rw [len_pos_push_front]; omega)]
    simp [push_front, List.replicate_succ]

theorem extendNegLoop_eq (e : α) (v : SymVec α) (i : Int) :
    extendNegLoop e v i =
      ⟨v.vec_neg ++ List.replicate (-i - (v.len_neg : Int)).toNat e, v.vec_pos⟩ := by
  suffices hsuf : ∀ (n : Nat) (w : SymVec α), (-i - (w.len_neg : Int)).toNat = n →
      extendNegLoop e w i = ⟨w.vec_neg ++ List.replicate n e, w.vec_pos⟩ by
    exact hsuf _ v rfl
  intro n
  induction n with
  | zero =>
    intro w hn
    rw [extendNegLoop, dif_neg]
    · simp
    · simp only [need_extend_neg, decide_eq_true_eq]
      omega
  | succ n ih =>
    intro w hn
    have hle : (w.len_neg : Int) + 1 ≤ -i := by omega
    rw [extendNegLoop,
      dif_pos (by simp only [need_extend_neg, decide_eq_true_eq]; exact hle)]
    rw [ih (w.push_back e) (by rw [len_neg_push_back]; omega)]
    simp [push_back, List.replicate_succ]

theorem pushFrontN_eq (v : SymVec α) (e : α) (n : Nat) :
    pushFrontN v e n = ⟨v.vec_neg, v.vec_pos ++ List.replicate n e⟩ := by
  induction n with
  | zero => simp [pushFrontN]
  | succ n ih =>
    rw [pushFrontN, ih]
    simp [push_front, List.replicate_succ']

theorem get_pos_isSome (v : SymVec α) (i : Int) (h0 : 0 ≤ i)
    (h : i < (v.len_pos : Int)) : (v.get i).isSome = true := by
  unfold get
  rw [if_neg (by omega)]
  rw [getElem?_isSome_iff]
  unfold len_pos at h
  omega

theorem get_neg_isSome (v : SymVec α) (i : Int) (h0 : i < 0)
    (h : -i ≤ (v.len_neg : Int)) : (v.get i).isSome = true := by
  unfold get
  rw [if_pos h0]
  rw [getElem?_isSome_iff]
  unfold len_neg at h
  omega

theorem get_none_pos (v : SymVec α) (i : Int) (h0 : 0 ≤ i)
    (h : (v.len_pos : Int) ≤ i) : v.get i = none := by
  unfold get
  rw [if_neg (by omega)]
  apply List.getElem?_eq_none
  unfold len_pos at h
  omega

theorem get_none_neg (v : SymVec α) (i : Int) (h0 : i < 0)
    (h : (v.len_neg : Int) < -i) : v.get i = none := by
  unfold get
  rw [if_pos h0]
  apply List.getElem?_eq_none
  unfold len_neg at h
  omega

theorem len_pos_extendPosLoop (e : α) (v : SymVec α) (i : Int) :
    (extendPosLoop e v i).len_pos = max v.len_pos (i + 1).toNat := by
  rw [extendPosLoop_eq]
  unfold len_pos
  simp only [List.length_append, List.length_replicate]
  omega

theorem len_neg_extendPosLoop (e : α) (v : SymVec α) (i : Int) :
    (extendPosLoop e v i).len_neg = v.len_neg := by
  rw [extendPosLoop_eq]
  rfl

theorem len_neg_extendNegLoop (e : α) (v : SymVec α) (i : Int) :
    (extendNegLoop e v i).len_neg = max v.len_neg (-i).toNat := by
  rw [extendNegLoop_eq]
  unfold len_neg
  simp only [List.length_append, List.length_replicate]
  omega

theorem len_pos_extendNegLoop (e : α) (v : SymVec α) (i : Int) :
    (extendNegLoop e v i).len_pos = v.len_pos := by
  rw [extendNegLoop_eq]
  rfl

theorem get_extendPosLoop (e : α) (v : SymVec α) (i j : Int) :
    (extendPosLoop e v i).get j =
      if 0 ≤ j ∧ (v.len_pos : Int) ≤ j ∧ j ≤ i then some e else v.get j := by
  rw [extendPosLoop_eq]
  unfold get len_pos
  by_cases hj : j < 0
  · rw [if_pos hj, if_neg (by omega), if_pos hj]
  · rw [if_neg hj]
    rw [List.getElem?_append]
    by_cases h1 : j < (v.vec_pos.length : Int)
    · rw [if_pos (by omega), if_neg (by omega), if_neg hj]
    · rw [if_neg (by omega)]
      by_cases h2 : j ≤ i
      · rw [List.getElem?_replicate, if_pos (by omega), if_pos (by omega)]
      · rw [List.getElem?_replicate, if_neg (by omega), if_neg (by omega), if_neg hj]
        rw [List.getElem?_eq_none (by omega)]

theorem get_extendNegLoop (e : α) (v : SymVec α) (i j : Int) :
    (extendNegLoop e v i).get j =
      if j < 0 ∧ (v.len_neg : Int) + 1 ≤ -j ∧ i ≤ j then some e else v.get j := by
  rw [extendNegLoop_eq]
  unfold get len_neg
  by_cases hj : j < 0
  · rw [if_pos hj]
    rw [List.getElem?_append]
    by_cases h1 : (-(1 + j)).toNat < v.vec_neg.length
    · rw [if_pos h1, if_neg (by omega), if_pos hj]
    · rw [if_neg h1]
      by_cases h2 : i ≤ j
      · rw [List.getElem?_replicate, if_pos (by omega), if_pos (by omega)]
      · rw [List.getElem?_replicate, if_neg (by omega), if_neg (by omega), if_pos hj]
        rw [List.getElem?_eq_none (by omega)]
  · rw [if_neg hj, if_neg (by omega), if_neg hj]

theorem get_extendPosLoop_cases (e : α) (v : SymVec α) (i j : Int) :
    (extendPosLoop e v i).get j = v.get j ∨
      ((extendPosLoop e v i).get j = some e ∧ v.get j = none) := by
  rw [get_extendPosLoop]
  by_cases h : 0 ≤ j ∧ (v.len_pos : Int) ≤ j ∧ j ≤ i
  · right
    rw [if_pos h]
    exact ⟨rfl, get_none_pos v j h.1 h.2.1⟩
  · left
    rw [if_neg h]

theorem get_extendNegLoop_cases (e : α) (v : SymVec α) (i j : Int) :
    (extendNegLoop e v i).get j = v.get j ∨
      ((extendNegLoop e v i).get j = some e ∧ v.get j = none) := by
  rw [get_extendNegLoop]
  by_cases h : j < 0 ∧ (v.len_neg : Int) + 1 ≤ -j ∧ i ≤ j
  · right
    rw [if_pos h]
    exact ⟨rfl, get_none_neg v j h.1 (by omega)⟩
  · left
    rw [if_neg h]

theorem get_extendPosLoop_self (e : α) (v : SymVec α) (i : Int) (h : 0 ≤ i) :
    ((extendPosLoop e v i).get i).isSome = true := by
  rw [get_extendPosLoop]
  by_cases hc : 0 ≤ i ∧ (v.len_pos : Int) ≤ i ∧ i ≤ i
  · rw [if_pos hc]
    rfl
  · rw [if_neg hc]
    exact get_pos_isSome v i h (by omega)

theorem get_extendNegLoop_self (e : α) (v : SymVec α) (i : Int) (h : i < 0) :
    ((extendNegLoop e v i).get i).isSome = true := by
  rw [get_extendNegLoop]
  by_cases hc : i < 0 ∧ (v.len_neg : Int) + 1 ≤ -i ∧ i ≤ i
  · rw [if_pos hc]
    rfl
  · rw [if_neg hc]
    exact get_neg_isSome v i h (by omega)

theorem get_isSome_iff (v : SymVec α) (i : Int) :
    (v.get i).isSome = true ↔
      ((0 ≤ i ∧ i < (v.len_pos : Int)) ∨ (i < 0 ∧ -i ≤ (v.len_neg : Int))) := by
  unfold get len_pos len_neg
  by_cases hi : i < 0
  · rw [if_pos hi, getElem?_isSome_iff]
    omega
  · rw [if_neg hi, getElem?_isSome_iff]
    omega

theorem extendPosLoop_noop (e : α) (v : SymVec α) (i : Int)
    (h : i < (v.len_pos : Int)) : extendPosLoop e v i = v := by
  rw [extendPosLoop_eq]
  have h0 : (i + 1 - (v.len_pos : Int)).toNat = 0 := by omega
  rw [h0]
  simp

theorem extendNegLoop_noop (e : α) (v : SymVec α) (i : Int)
    (h : -i ≤ (v.len_neg : Int)) : extendNegLoop e v i = v := by
  rw [extendNegLoop_eq]
  have h0 : (-i - (v.len_neg : Int)).toNat = 0 := by omega
  rw [h0]
  simp

end SymVec

namespace Board

theorem get_cell_eq (b : Board) (col row : Int) :
    b.get_cell col row =
      ((b.cells.get row).bind (fun rw => rw.get col)).getD Cell.Empty := by
  unfold get_cell
  by_cases hr : b.cells.is_available row = true
  · rw [if_pos hr]
    obtain ⟨rw0, hrw⟩ :=
      Option.isSome_iff_exists.mp ((SymVec.is_available_iff _ _).mp hr)
    rw [hrw]
    dsimp only
    by_cases hc : rw0.is_available col = true
    · rw [if_pos hc]
      rfl
    · rw [if_neg hc]
      have hn : rw0.get col = none :=
        SymVec.is_available_false rw0 col (by simpa using hc)
      rw [Option.some_bind, hn]
      rfl
  · rw [if_neg hr]
    have hn : b.cells.get row = none :=
      SymVec.is_available_false _ row (by simpa using hr)
    rw [hn]
    rfl

theorem cellAllocated_iff (b : Board) (col row : Int) :
    b.cellAllocated col row = true ↔
      ((b.cells.get row).bind (fun rw => rw.get col)).isSome = true := by
  unfold cellAllocated
  rw [Bool.and_eq_true]
  constructor
  · rintro ⟨hr, hc⟩
    obtain ⟨rw0, hrw⟩ :=
      Option.isSome_iff_exists.mp ((SymVec.is_available_iff _ _).mp hr)
    rw [hrw]
    rw [hrw] at hc
    exact (SymVec.is_available_iff _ _).mp hc
  · intro h
    cases hrw : b.cells.get row with
    | none => rw [hrw] at h; cases h
    | some rw0 =>
      rw [hrw] at h
      refine ⟨(SymVec.is_available_iff _ _).mpr (by rw [hrw]; rfl), ?_⟩
      dsimp only
      exact (SymVec.is_available_iff _ _).mpr h

theorem get_cellChk_some (b : Board) (col row : Int) :
    b.get_cellChk col row = some (b.get_cell col row) := by
  unfold get_cellChk get_cell
  by_cases hr : b.cells.is_available row = true
  · rw [if_pos hr, if_pos hr]
    obtain ⟨rw0, hrw⟩ :=
      Option.isSome_iff_exists.mp ((SymVec.is_available_iff _ _).mp hr)
    rw [hrw]
    dsimp only
    by_cases hc : rw0.is_available col = true
    · rw [if_pos hc, if_pos hc]
      obtain ⟨a, ha⟩ :=
        Option.isSome_iff_exists.mp ((SymVec.is_available_iff _ _).mp hc)
      rw [ha]
      rfl
    · rw [if_neg hc, if_neg hc]
  · rw [if_neg hr, if_neg hr]

theorem is_aliveChk_some (b : Board) (col row : Int) :
    b.is_aliveChk col row = some (b.is_alive col row) := by
  unfold is_aliveChk is_alive
  rw [get_cellChk_some]
  rfl

theorem ensure_cell_occupied (b : Board) (col row : Int) :
    (b.ensure_cell col row).occupied = b.occupied := rfl

theorem writeCell_occupied (b : Board) (col row : Int) (s : Cell) :
    (b.writeCell col row s).occupied = b.occupied := rfl

theorem born_at_occupied (b : Board) (col row : Int) :
    (b.born_at col row).occupied = insert ⟨col, row⟩ b.occupied := rfl

theorem kill_at_occupied (b : Board) (col row : Int) :
    (b.kill_at col row).occupied = b.occupied.erase ⟨col, row⟩ := rfl

theorem ensure_cell_allocated (b : Board) (col row : Int) :
    (b.ensure_cell col row).cellAllocated col row = true := by
  rw [cellAllocated_iff]
  simp only [ensure_cell]
  set C1 := (if 0 ≤ row then SymVec.extendPosLoop SymVec.new b.cells row
             else SymVec.extendNegLoop SymVec.new b.cells row) with hC1
  have hsome : (C1.get row).isSome = true := by
    rw [hC1]
    by_cases hr : 0 ≤ row
    · rw [if_pos hr]
      exact SymVec.get_extendPosLoop_self _ _ _ hr
    · rw [if_neg hr]
      exact SymVec.get_extendNegLoop_self _ _ _ (by omega)
  rw [SymVec.get_set_self _ _ _ hsome, Option.some_bind]
  by_cases hc : 0 ≤ col
  · rw [if_pos hc]
    exact SymVec.get_extendPosLoop_self _ _ _ hc
  · rw [if_neg hc]
    exact SymVec.get_extendNegLoop_self _ _ _ (by omega)

theorem ensure_cell_get_cell (b : Board) (col row c r : Int) :
    (b.ensure_cell col row).get_cell c r = b.get_cell c r := by
  rw [get_cell_eq, get_cell_eq]
  simp only [ensure_cell]
  set C1 := (if 0 ≤ row then SymVec.extendPosLoop SymVec.new b.cells row
             else SymVec.extendNegLoop SymVec.new b.cells row) with hC1
  have hsome : (C1.get row).isSome = true := by
    rw [hC1]
    by_cases hr0 : 0 ≤ row
    · rw [if_pos hr0]
      exact SymVec.get_extendPosLoop_self _ _ _ hr0
    · rw [if_neg hr0]
      exact SymVec.get_extendNegLoop_self _ _ _ (by omega)
  have hrowcases : ∀ j : Int, C1.get j = b.cells.get j ∨
      (C1.get j = some SymVec.new ∧ b.cells.get j = none) := by
    intro j
    rw [hC1]
    by_cases hr0 : 0 ≤ row
    · rw [if_pos hr0]
      exact SymVec.get_extendPosLoop_cases _ _ _ _
    · rw [if_neg hr0]
      exact SymVec.get_extendNegLoop_cases _ _ _ _
  have hcolcases : ∀ (rv : SymVec Cell) (c2 : Int),
      (if 0 ≤ col then SymVec.extendPosLoop Cell.Empty rv col
       else SymVec.extendNegLoop Cell.Empty rv col).get c2 = rv.get c2 ∨
      ((if 0 ≤ col then SymVec.extendPosLoop Cell.Empty rv col
        else SymVec.extendNegLoop Cell.Empty rv col).get c2 = some Cell.Empty ∧
        rv.get c2 = none) := by
    intro rv c2
    by_cases hc0 : 0 ≤ col
    · rw [if_pos hc0]
      exact SymVec.get_extendPosLoop_cases _ _ _ _
    · rw [if_neg hc0]
      exact SymVec.get_extendNegLoop_cases _ _ _ _
  by_cases hr : r = row
  · subst hr
    rw [SymVec.get_set_self _ _ _ hsome, Option.some_bind]
    rcases hrowcases r with hcase | ⟨hnew, hnone⟩
    · cases hbg : b.cells.get r with
      | none =>
        rw [hbg] at hcase
        rw [hcase] at hsome
        cases hsome
      | some rv =>
        rw [hbg] at hcase
        rw [hcase, Option.getD_some, Option.some_bind]
        rcases hcolcases rv c with h | ⟨hs, hn⟩
        · rw [h]
        · rw [hs, hn]
          rfl
    · rw [hnone, hnew, Option.getD_some]
      rcases hcolcases SymVec.new c with h | ⟨hs, hn⟩
      · rw [h, SymVec.get_new]
        rfl
      · rw [hs]
        rfl
  · rw [SymVec.get_set_ne _ _ _ _ hr]
    rcases hrowcases r with hcase | ⟨hnew, hnone⟩
    · rw [hcase]
    · rw [hnew, hnone, Option.some_bind, SymVec.get_new]
      rfl

theorem ensure_cell_is_alive (b : Board) (col row c r : Int) :
    (b.ensure_cell col row).is_alive c r = b.is_alive c r := by
  unfold is_alive
  rw [ensure_cell_get_cell]

theorem writeCell_get_cell (b : Board) (col row : Int) (s : Cell)
    (h : b.cellAllocated col row = true) (c r : Int) :
    (b.writeCell col row s).get_cell c r =
      if c = col ∧ r = row then s else b.get_cell c r := by
  rw [cellAllocated_iff] at h
  rw [get_cell_eq, get_cell_eq]
  unfold writeCell
  cases hbg : b.cells.get row with
  | none =>
    rw [hbg] at h
    cases h
  | some rv =>
    rw [hbg] at h
    rw [Option.some_bind] at h
    have hrowsome : (b.cells.get row).isSome = true := by
      rw [hbg]
      rfl
    simp only
    rw [Option.getD_some]
    by_cases hr : r = row
    · subst hr
      rw [SymVec.get_set_self _ _ _ hrowsome, Option.some_bind]
      by_cases hc : c = col
      · subst hc
        rw [SymVec.get_set_self _ _ _ h]
        simp
      · rw [SymVec.get_set_ne _ _ _ _ hc, hbg, Option.some_bind]
        simp [hc]
    · rw [SymVec.get_set_ne _ _ _ _ hr]
      have hne : ¬(c = col ∧ r = row) := by
        intro hx
        exact hr hx.2
      rw [if_neg hne]

theorem get_cell_occ_irrel (b : Board) (occ2 : Finset Coord) (c r : Int) :
    get_cell { cells := b.cells, occupied := occ2 } c r = b.get_cell c r := by
  rw [get_cell_eq, get_cell_eq]

theorem born_at_get_cell (b : Board) (col row c r : Int) :
    (b.born_at col row).get_cell c r =
      if c = col ∧ r = row then Cell.Occupied else b.get_cell c r := by
  unfold born_at
  simp only
  rw [get_cell_occ_irrel]
  rw [writeCell_get_cell _ _ _ _ (ensure_cell_allocated b col row)]
  rw [ensure_cell_get_cell]

theorem kill_at_get_cell (b : Board) (col row c r : Int) :
    (b.kill_at col row).get_cell c r =
      if c = col ∧ r = row then Cell.Empty else b.get_cell c r := by
  unfold kill_at
  simp only
  rw [get_cell_occ_irrel]
  rw [writeCell_get_cell _ _ _ _ (ensure_cell_allocated b col row)]
  rw [ensure_cell_get_cell]

end Board

theorem board_eq_of (b1 b2 : Board) (h1 : b1.cells = b2.cells)
    (h2 : b1.occupied = b2.occupied) : b1 = b2 := by
  cases b1
  cases b2
  simp only at h1 h2
  rw [h1, h2]

namespace Board

theorem allocate_eq (cols rows : Nat) :
    allocate cols rows =
      ⟨[], List.replicate rows ⟨[], List.replicate cols Cell.Empty⟩⟩ := by
  unfold allocate
  rw [SymVec.pushFrontN_eq, SymVec.pushFrontN_eq]
  simp [SymVec.new]

theorem new_occupied (width height : Nat) : (new width height).occupied = ∅ := rfl

theorem new_get_cell (width height : Nat) (c r : Int) :
    (new width height).get_cell c r = Cell.Empty := by
  rw [get_cell_eq]
  unfold new
  simp only
  rw [allocate_eq]
  unfold SymVec.get
  by_cases hr : r < 0
  · rw [if_pos hr]
    simp
  · rw [if_neg hr]
    rw [List.getElem?_replicate]
    by_cases h2 : r.toNat < max height 4
    · rw [if_pos h2, Option.some_bind]
      by_cases hc : c < 0
      · rw [if_pos hc]
        simp
      · rw [if_neg hc, List.getElem?_replicate]
        by_cases h3 : c.toNat < max width 4
        · rw [if_pos h3]
          rfl
        · rw [if_neg h3]
          rfl
    · rw [if_neg h2]
      rfl

theorem is_alive_iff_content (b : Board) (col row : Int) :
    b.is_alive col row = true ↔
      (b.cells.get row).bind (fun rw => rw.get col) = some Cell.Occupied := by
  unfold is_alive
  rw [get_cell_eq]
  cases hX : (b.cells.get row).bind fun rw => rw.get col with
  | none => simp
  | some a => cases a <;> simp

theorem ensure_cell_noop (b : Board) (col row : Int)
    (h : b.cellAllocated col row = true) : b.ensure_cell col row = b := by
  rw [cellAllocated_iff] at h
  cases hbg : b.cells.get row with
  | none =>
    rw [hbg] at h
    cases h
  | some rv =>
    rw [hbg, Option.some_bind] at h
    have hrow := (SymVec.get_isSome_iff _ _).mp (by rw [hbg]; rfl)
    have hcol := (SymVec.get_isSome_iff _ _).mp h
    unfold ensure_cell
    simp only
    have hcells1 : (if 0 ≤ row then SymVec.extendPosLoop SymVec.new b.cells row
        else SymVec.extendNegLoop SymVec.new b.cells row) = b.cells := by
      by_cases hr0 : 0 ≤ row
      · rw [if_pos hr0]
        exact SymVec.extendPosLoop_noop _ _ _ (by omega)
      · rw [if_neg hr0]
        exact SymVec.extendNegLoop_noop _ _ _ (by omega)
    rw [hcells1, hbg, Option.getD_some]
    have hrw1 : (if 0 ≤ col then SymVec.extendPosLoop Cell.Empty rv col
        else SymVec.extendNegLoop Cell.Empty rv col) = rv := by
      by_cases hc0 : 0 ≤ col
      · rw [if_pos hc0]
        exact SymVec.extendPosLoop_noop _ _ _ (by omega)
      · rw [if_neg hc0]
        exact SymVec.extendNegLoop_noop _ _ _ (by omega)
    rw [hrw1, SymVec.set_get_self _ _ _ hbg]

theorem cellAllocated_of_occupied (b : Board) (col row : Int)
    (h : b.get_cell col row = Cell.Occupied) : b.cellAllocated col row = true := by
  rw [cellAllocated_iff]
  rw [get_cell_eq] at h
  cases hX : (b.cells.get row).bind (fun rw => rw.get col) with
  | none =>
    rw [hX] at h
    simp at h
  | some a => rfl

theorem born_at_eq_write (b : Board) (col row : Int)
    (h : b.cellAllocated col row = true) :
    b.born_at col row =
      { cells := b.cells.set row
          (((b.cells.get row).getD SymVec.new).set col Cell.Occupied),
        occupied := insert ⟨col, row⟩ b.occupied } := by
  unfold born_at writeCell
  simp only
  rw [ensure_cell_noop _ _ _ h]

end Board

namespace Board

theorem born_born (b : Board) (col row : Int) :
    (b.born_at col row).born_at col row = b.born_at col row := by
  have hocc : (b.born_at col row).get_cell col row = Cell.Occupied := by
    rw [born_at_get_cell]
    simp
  have halloc := cellAllocated_of_occupied _ _ _ hocc
  rw [born_at_eq_write _ _ _ halloc]
  have hbind := (cellAllocated_iff _ _ _).mp halloc
  cases hbg : (b.born_at col row).cells.get row with
  | none =>
    rw [hbg] at hbind
    cases hbind
  | some rv =>
    have hrvcol : rv.get col = some Cell.Occupied := by
      rw [get_cell_eq, hbg, Option.some_bind] at hocc
      rw [hbg, Option.some_bind] at hbind
      cases hX : rv.get col with
      | none =>
        rw [hX] at hbind
        cases hbind
      | some a =>
        rw [hX] at hocc
        rw [Option.getD_some] at hocc
        rw [hocc]
    apply board_eq_of
    · simp only
      rw [Option.getD_some, SymVec.set_get_self _ _ _ hrvcol,
        SymVec.set_get_self _ _ _ hbg]
    · simp only
      rw [born_at_occupied, Finset.insert_idem]

theorem applyBOps_cons (b : Board) (op : BOp) (ops : List BOp) :
    applyBOps b (op :: ops) = applyBOps (applyBOp b op) ops := rfl

theorem applyBOps_inv (b : Board) (ops : List BOp)
    (h : ∀ c r : Int, (⟨c, r⟩ : Coord) ∈ b.occupied ↔ b.is_alive c r = true) :
    ∀ c r : Int, (⟨c, r⟩ : Coord) ∈ (applyBOps b ops).occupied ↔
      (applyBOps b ops).is_alive c r = true := by
  induction ops generalizing b with
  | nil => exact h
  | cons op rest ih =>
    rw [applyBOps_cons]
    apply ih
    intro c r
    cases op with
    | born col row =>
      show (⟨c, r⟩ : Coord) ∈ (b.born_at col row).occupied ↔
        (b.born_at col row).is_alive c r = true
      rw [born_at_occupied, Finset.mem_insert]
      unfold is_alive
      rw [born_at_get_cell]
      by_cases hcr : c = col ∧ r = row
      · rw [if_pos hcr]
        obtain ⟨h1, h2⟩ := hcr
        subst h1
        subst h2
        simp
      · rw [if_neg hcr]
        have hne : ¬ (⟨c, r⟩ : Coord) = ⟨col, row⟩ := by
          intro hx
          rw [Coord.mk.injEq] at hx
          exact hcr hx
        simp only [hne, false_or]
        exact h c r
    | kill col row =>
      show (⟨c, r⟩ : Coord) ∈ (b.kill_at col row).occupied ↔
        (b.kill_at col row).is_alive c r = true
      rw [kill_at_occupied, Finset.mem_erase]
      unfold is_alive
      rw [kill_at_get_cell]
      by_cases hcr : c = col ∧ r = row
      · rw [if_pos hcr]
        obtain ⟨h1, h2⟩ := hcr
        subst h1
        subst h2
        simp
      · rw [if_neg hcr]
        have hne : ¬ (⟨c, r⟩ : Coord) = ⟨col, row⟩ := by
          intro hx
          rw [Coord.mk.injEq] at hx
          exact hcr hx
        simp only [ne_eq, hne, not_false_eq_true, true_and]
        exact h c r

theorem new_inv (width height : Nat) :
    ∀ c r : Int, (⟨c, r⟩ : Coord) ∈ (new width height).occupied ↔
      (new width height).is_alive c r = true := by
  intro c r
  rw [new_occupied]
  unfold is_alive
  rw [new_get_cell]
  simp

theorem never_born_get_cell (b : Board) (ops : List BOp) (col row : Int)
    (hb : b.get_cell col row = Cell.Empty)
    (hno : BOp.born col row ∉ ops) :
    (applyBOps b ops).get_cell col row = Cell.Empty := by
  induction ops generalizing b with
  | nil => exact hb
  | cons op rest ih =>
    rw [applyBOps_cons]
    have hno2 : BOp.born col row ∉ rest := by
      intro hx
      exact hno (List.mem_cons_of_mem _ hx)
    apply ih _ _ hno2
    cases op with
    | born c2 r2 =>
      show (b.born_at c2 r2).get_cell col row = Cell.Empty
      rw [born_at_get_cell]
      have hne : ¬ (col = c2 ∧ row = r2) := by
        intro hx
        apply hno
        rw [hx.1, hx.2]
        exact List.mem_cons_self _ _
      rw [if_neg hne]
      exact hb
    | kill c2 r2 =>
      show (b.kill_at c2 r2).get_cell col row = Cell.Empty
      rw [kill_at_get_cell]
      by_cases hcr : col = c2 ∧ row = r2
      · rw [if_pos hcr]
      · rw [if_neg hcr]
        exact hb

end Board

theorem applySOps_cons {α : Type} (v : SymVec α) (op : SOp α) (ops : List (SOp α)) :
    applySOps v (op :: ops) = applySOps (applySOp v op) ops := rfl

theorem len_pos_applySOp {α : Type} (v : SymVec α) (op : SOp α) :
    (applySOp v op).len_pos = v.len_pos + (if SOp.isPF op then 1 else 0) := by
  cases op with
  | pfront a => simp [applySOp, SOp.isPF, SymVec.len_pos_push_front]
  | pback a => simp [applySOp, SOp.isPF, SymVec.len_pos_push_back]

theorem len_neg_applySOp {α : Type} (v : SymVec α) (op : SOp α) :
    (applySOp v op).len_neg = v.len_neg + (if SOp.isPB op then 1 else 0) := by
  cases op with
  | pfront a => simp [applySOp, SOp.isPB, SymVec.len_neg_push_front]
  | pback a => simp [applySOp, SOp.isPB, SymVec.len_neg_push_back]

theorem len_pos_applySOps {α : Type} (ops : List (SOp α)) (v : SymVec α) :
    (applySOps v ops).len_pos = v.len_pos + ops.countP SOp.isPF := by
  induction ops generalizing v with
  | nil => simp [applySOps]
  | cons op rest ih =>
    rw [applySOps_cons, ih, len_pos_applySOp, List.countP_cons]
    omega

theorem len_neg_applySOps {α : Type} (ops : List (SOp α)) (v : SymVec α) :
    (applySOps v ops).len_neg = v.len_neg + ops.countP SOp.isPB := by
  induction ops generalizing v with
  | nil => simp [applySOps]
  | cons op rest ih =>
    rw [applySOps_cons, ih, len_neg_applySOp, List.countP_cons]
    omega

theorem get_applySOp_of_isSome {α : Type} (v : SymVec α) (op : SOp α) (i : Int)
    (h : (v.get i).isSome = true) : (applySOp v op).get i = v.get i := by
  obtain hb | hb := (SymVec.get_isSome_iff v i).mp h
  · cases op with
    | pfront a =>
      show (v.push_front a).get i = v.get i
      rw [SymVec.get_push_front, if_neg (by omega)]
    | pback a =>
      show (v.push_back a).get i = v.get i
      rw [SymVec.get_push_back, if_neg (by omega)]
  · cases op with
    | pfront a =>
      show (v.push_front a).get i = v.get i
      rw [SymVec.get_push_front, if_neg (by omega)]
    | pback a =>
      show (v.push_back a).get i = v.get i
      rw [SymVec.get_push_back, if_neg (by omega)]

theorem get_applySOps_of_isSome {α : Type} (ops : List (SOp α)) (v : SymVec α) (i : Int)
    (h : (v.get i).isSome = true) : (applySOps v ops).get i = v.get i := by
  induction ops generalizing v with
  | nil => rfl
  | cons op rest ih =>
    rw [applySOps_cons, ih (applySOp v op) (by rw [get_applySOp_of_isSome v op i h]; exact h),
      get_applySOp_of_isSome v op i h]

theorem countP_take_cons {α : Type} (p : SOp α → Bool) (op : SOp α)
    (rest : List (SOp α)) (j : Nat) :
    ((op :: rest).take (j + 1)).countP p =
      (rest.take j).countP p + (if p op then 1 else 0) := by
  rw [List.take_succ_cons, List.countP_cons]

theorem applySOps_get_assigned {α : Type} (ops : List (SOp α)) (v : SymVec α)
    (j : Nat) (a : α) (hj : j < ops.length) :
    (ops.get ⟨j, hj⟩ = SOp.pfront a →
      (applySOps v ops).get
        ((v.len_pos : Int) + ((ops.take j).countP SOp.isPF : Int)) = some a) ∧
    (ops.get ⟨j, hj⟩ = SOp.pback a →
      (applySOps v ops).get
        (-((v.len_neg : Int) + ((ops.take j).countP SOp.isPB : Int) + 1)) = some a) := by
  induction ops generalizing v j with
  | nil => exact absurd hj (by simp)
  | cons op rest ih =>
    cases j with
    | zero =>
      constructor
      · intro hop
        have hop2 : op = SOp.pfront a := hop
        subst hop2
        rw [applySOps_cons]
        have hget : (applySOp v (SOp.pfront a)).get (v.len_pos : Int) = some a := by
          show (v.push_front a).get (v.len_pos : Int) = some a
          rw [SymVec.get_push_front, if_pos rfl]
        rw [List.take_zero, List.countP_nil]
        simp only [Nat.cast_zero, add_zero]
        rw [get_applySOps_of_isSome rest _ _ (by rw [hget]; rfl), hget]
      · intro hop
        have hop2 : op = SOp.pback a := hop
        subst hop2
        rw [applySOps_cons]
        have hget : (applySOp v (SOp.pback a)).get (-((v.len_neg : Int) + 1)) = some a := by
          show (v.push_back a).get (-((v.len_neg : Int) + 1)) = some a
          rw [SymVec.get_push_back, if_pos rfl]
        rw [List.take_zero, List.countP_nil]
        simp only [Nat.cast_zero, add_zero]
        rw [get_applySOps_of_isSome rest _ _ (by rw [hget]; rfl), hget]
    | succ j2 =>
      have hj2 : j2 < rest.length := by simpa using hj
      constructor
      · intro hop
        have hop2 : rest.get ⟨j2, hj2⟩ = SOp.pfront a := hop
        have hmain := (ih (applySOp v op) j2 hj2).1 hop2
        rw [applySOps_cons]
        have hidx : (v.len_pos : Int) +
            (((op :: rest).take (j2 + 1)).countP SOp.isPF : Int) =
            ((applySOp v op).len_pos : Int) + ((rest.take j2).countP SOp.isPF : Int) := by
          rw [countP_take_cons, len_pos_applySOp]
          cases op <;> simp [SOp.isPF] <;> push_cast <;> ring
        rw [hidx]
        exact hmain
      · intro hop
        have hop2 : rest.get ⟨j2, hj2⟩ = SOp.pback a := hop
        have hmain := (ih (applySOp v op) j2 hj2).2 hop2
        rw [applySOps_cons]
        have hidx : -((v.len_neg : Int) +
            (((op :: rest).take (j2 + 1)).countP SOp.isPB : Int) + 1) =
            -(((applySOp v op).len_neg : Int) +
              ((rest.take j2).countP SOp.isPB : Int) + 1) := by
          rw [countP_take_cons, len_neg_applySOp]
          cases op <;> simp [SOp.isPB] <;> push_cast <;> ring
        rw [hidx]
        exact hmain

theorem len_pos_pushFrontList {α : Type} (es : List α) (v : SymVec α) :
    (pushFrontList v es).len_pos = v.len_pos + es.length := by
  induction es generalizing v with
  | nil => simp [pushFrontList]
  | cons e rest ih =>
    show (pushFrontList (v.push_front e) rest).len_pos = _
    rw [ih, SymVec.len_pos_push_front]
    simp
    omega

theorem len_neg_pushBackList {α : Type} (es : List α) (v : SymVec α) :
    (pushBackList v es).len_neg = v.len_neg + es.length := by
  induction es generalizing v with
  | nil => simp [pushBackList]
  | cons e rest ih =>
    show (pushBackList (v.push_back e) rest).len_neg = _
    rw [ih, SymVec.len_neg_push_back]
    simp
    omega

namespace Board

theorem ensure_cell_len_pos (b : Board) (col row : Int) :
    (b.ensure_cell col row).cells.len_pos = max b.cells.len_pos (row + 1).toNat := by
  unfold ensure_cell
  simp only
  rw [SymVec.len_pos_set]
  by_cases hr : 0 ≤ row
  · rw [if_pos hr, SymVec.len_pos_extendPosLoop]
  · rw [if_neg hr, SymVec.len_pos_extendNegLoop]
    omega

theorem ensure_cell_len_neg (b : Board) (col row : Int) :
    (b.ensure_cell col row).cells.len_neg = max b.cells.len_neg (-row).toNat := by
  unfold ensure_cell
  simp only
  rw [SymVec.len_neg_set]
  by_cases hr : 0 ≤ row
  · rw [if_pos hr, SymVec.len_neg_extendPosLoop]
    omega
  · rw [if_neg hr, SymVec.len_neg_extendNegLoop]

theorem ensure_cell_get_ne_of_isSome (b : Board) (col row r : Int) (hne : r ≠ row)
    (h : (b.cells.get r).isSome = true) :
    (b.ensure_cell col row).cells.get r = b.cells.get r := by
  unfold ensure_cell
  simp only
  rw [SymVec.get_set_ne _ _ _ _ hne]
  by_cases hr : 0 ≤ row
  · rw [if_pos hr]
    rcases SymVec.get_extendPosLoop_cases SymVec.new b.cells row r with hc | ⟨-, hnone⟩
    · exact hc
    · rw [hnone] at h
      cases h
  · rw [if_neg hr]
    rcases SymVec.get_extendNegLoop_cases SymVec.new b.cells row r with hc | ⟨-, hnone⟩
    · exact hc
    · rw [hnone] at h
      cases h

theorem ensure_cell_get_ne_of_none (b : Board) (col row r : Int) (hne : r ≠ row)
    (h : b.cells.get r = none) :
    (b.ensure_cell col row).cells.get r = none ∨
      (b.ensure_cell col row).cells.get r = some SymVec.new := by
  unfold ensure_cell
  simp only
  rw [SymVec.get_set_ne _ _ _ _ hne]
  by_cases hr : 0 ≤ row
  · rw [if_pos hr]
    rcases SymVec.get_extendPosLoop_cases SymVec.new b.cells row r with hc | ⟨hnew, -⟩
    · rw [hc, h]
      exact Or.inl rfl
    · exact Or.inr hnew
  · rw [if_neg hr]
    rcases SymVec.get_extendNegLoop_cases SymVec.new b.cells row r with hc | ⟨hnew, -⟩
    · rw [hc, h]
      exact Or.inl rfl
    · exact Or.inr hnew

theorem ensure_cell_get_row_detail (b : Board) (col row : Int) :
    ∃ rw1, (b.ensure_cell col row).cells.get row = some rw1 ∧
      rw1.len_pos = max ((b.cells.get row).getD SymVec.new).len_pos (col + 1).toNat ∧
      rw1.len_neg = max ((b.cells.get row).getD SymVec.new).len_neg (-col).toNat ∧
      (∀ i : Int, (((b.cells.get row).getD SymVec.new).get i).isSome = true →
        rw1.get i = ((b.cells.get row).getD SymVec.new).get i) ∧
      (∀ i : Int, ((b.cells.get row).getD SymVec.new).get i = none →
        rw1.get i = none ∨ rw1.get i = some Cell.Empty) := by
  unfold ensure_cell
  simp only
  have hsome : ((if 0 ≤ row then SymVec.extendPosLoop SymVec.new b.cells row
      else SymVec.extendNegLoop SymVec.new b.cells row).get row).isSome = true := by
    by_cases hr : 0 ≤ row
    · rw [if_pos hr]
      exact SymVec.get_extendPosLoop_self _ _ _ hr
    · rw [if_neg hr]
      exact SymVec.get_extendNegLoop_self _ _ _ (by omega)
  have hRV : ((if 0 ≤ row then SymVec.extendPosLoop SymVec.new b.cells row
      else SymVec.extendNegLoop SymVec.new b.cells row).get row).getD SymVec.new =
      (b.cells.get row).getD SymVec.new := by
    have hcases : (if 0 ≤ row then SymVec.extendPosLoop SymVec.new b.cells row
        else SymVec.extendNegLoop SymVec.new b.cells row).get row = b.cells.get row ∨
        ((if 0 ≤ row then SymVec.extendPosLoop SymVec.new b.cells row
          else SymVec.extendNegLoop SymVec.new b.cells row).get row = some SymVec.new ∧
          b.cells.get row = none) := by
      by_cases hr : 0 ≤ row
      · rw [if_pos hr]
        exact SymVec.get_extendPosLoop_cases _ _ _ _
      · rw [if_neg hr]
        exact SymVec.get_extendNegLoop_cases _ _ _ _
    rcases hcases with hc | ⟨hnew, hnone⟩
    · rw [hc]
    · rw [hnew, hnone]
      rfl
  rw [hRV]
  refine ⟨_, SymVec.get_set_self _ _ _ hsome, ?_, ?_, ?_, ?_⟩
  · by_cases hc : 0 ≤ col
    · rw [if_pos hc, SymVec.len_pos_extendPosLoop]
    · rw [if_neg hc, SymVec.len_pos_extendNegLoop]
      omega
  · by_cases hc : 0 ≤ col
    · rw [if_pos hc, SymVec.len_neg_extendPosLoop]
      omega
    · rw [if_neg hc, SymVec.len_neg_extendNegLoop]
  · intro i hi
    by_cases hc : 0 ≤ col
    · rw [if_pos hc]
      rcases SymVec.get_extendPosLoop_cases Cell.Empty
          ((b.cells.get row).getD SymVec.new) col i with h | ⟨-, hnone⟩
      · exact h
      · rw [hnone] at hi
        cases hi
    · rw [if_neg hc]
      rcases SymVec.get_extendNegLoop_cases Cell.Empty
          ((b.cells.get row).getD SymVec.new) col i with h | ⟨-, hnone⟩
      · exact h
      · rw [hnone] at hi
        cases hi
  · intro i hi
    by_cases hc : 0 ≤ col
    · rw [if_pos hc]
      rcases SymVec.get_extendPosLoop_cases Cell.Empty
          ((b.cells.get row).getD SymVec.new) col i with h | ⟨hnew, -⟩
      · rw [h, hi]
        exact Or.inl rfl
      · exact Or.inr hnew
    · rw [if_neg hc]
      rcases SymVec.get_extendNegLoop_cases Cell.Empty
          ((b.cells.get row).getD SymVec.new) col i with h | ⟨hnew, -⟩
      · rw [h, hi]
        exact Or.inl rfl
      · exact Or.inr hnew

end Board

theorem countP_isPF_add_isPB {α : Type} (ops : List (SOp α)) :
    ops.countP SOp.isPF + ops.countP SOp.isPB = ops.length := by
  induction ops with
  | nil => rfl
  | cons op rest ih =>
    rw [List.countP_cons, List.countP_cons, List.length_cons]
    cases op <;> simp [SOp.isPF, SOp.isPB] <;> omega

/-- C1. Occupied-set consistency: starting from a freshly constructed `Board`,
after any finite sequence of `born_at`/`kill_at` calls with arbitrary signed
coordinates, a coordinate is in the set returned by `get_occupied` exactly when
`is_alive` returns `true` for it, and exactly when its physically allocated
cell (if any) holds `Occupied`. -/
theorem occupied_consistency (w h : Nat) (ops : List BOp) (col row : Int) :
    ((⟨col, row⟩ : Coord) ∈ Board.get_occupied (applyBOps (Board.new w h) ops) ↔
      (applyBOps (Board.new w h) ops).is_alive col row = true) ∧
    ((⟨col, row⟩ : Coord) ∈ Board.get_occupied (applyBOps (Board.new w h) ops) ↔
      ((applyBOps (Board.new w h) ops).cells.get row).bind
        (fun rw => rw.get col) = some Cell.Occupied) := by
  have h1 := Board.applyBOps_inv (Board.new w h) ops (Board.new_inv w h) col row
  exact ⟨h1, h1.trans (Board.is_alive_iff_content _ _ _)⟩

/-- C2. Evidence of the iterator defect: on `Board::new(4,4)` followed by
`born_at(0,-1)` the board has 17 allocated cells and a live cell at
`(0,-1)`, but iterating the board yields only 12 pairs and never visits
`(0,-1)` — `into_iter` starts at row `+len_neg` (missing the negation), so
allocated negative rows, and row 0, are skipped. 100 is ample fuel: the run
terminates after 12 yields. -/
theorem board_iter_misses_negative_rows :
    ((Board.new 4 4).born_at 0 (-1)).is_alive 0 (-1) = true ∧
    Board.allocCount ((Board.new 4 4).born_at 0 (-1)) = 17 ∧
    (Board.iterList ((Board.new 4 4).born_at 0 (-1)) 100).length = 12 ∧
    ((⟨0, -1⟩ : Coord), true) ∉ Board.iterList ((Board.new 4 4).born_at 0 (-1)) 100 := by
  simp only [Board.born_at, Board.ensure_cell, Board.writeCell,
    SymVec.extendPosLoop_eq, SymVec.extendNegLoop_eq]
  decide

/-- C3. Grid read laziness: reading a coordinate outside the currently
allocated storage — or a coordinate never written by a `born_at` since the
board was constructed — returns `Empty` from `get_cell` and `false` from
`is_alive`. (`get_cell`/`is_alive` take `&self` in the source and are embedded
as pure functions: the read cannot mutate the occupied set or any allocation.) -/
theorem get_cell_unallocated_empty (b : Board) (col row : Int) (w h : Nat)
    (ops : List BOp)
    (hsrc : b.cellAllocated col row = false ∨
      (b = applyBOps (Board.new w h) ops ∧ BOp.born col row ∉ ops)) :
    b.get_cell col row = Cell.Empty ∧ b.is_alive col row = false := by
  have hempty : b.get_cell col row = Cell.Empty := by
    rcases hsrc with hna | ⟨hb, hno⟩
    · rw [Board.get_cell_eq]
      cases hX : (b.cells.get row).bind (fun rw => rw.get col) with
      | none => rfl
      | some a =>
        have : b.cellAllocated col row = true := by
          rw [Board.cellAllocated_iff, hX]
          rfl
        rw [this] at hna
        cases hna
    · rw [hb]
      exact Board.never_born_get_cell _ _ _ _ (Board.new_get_cell w h col row) hno
  refine ⟨hempty, ?_⟩
  unfold Board.is_alive
  rw [hempty]
  simp

/-- C3 witness: on a fresh 4x4 board the coordinate `(9,9)` is unallocated;
the read yields `Empty`/`false`. -/
theorem get_cell_unallocated_empty_witness :
    (Board.new 4 4).get_cell 9 9 = Cell.Empty ∧
      (Board.new 4 4).is_alive 9 9 = false :=
  get_cell_unallocated_empty (Board.new 4 4) 9 9 4 4 [] (Or.inl (by decide))

/-- C4 counterexample: `kill_at` on the never-born coordinate `(10,0)` of a
fresh `Board::new(4,4)` does not leave the board unchanged — `ensure_cell`
extends row 0 from 4 to 11 columns. -/
theorem kill_never_born_changes_allocation :
    Board.kill_at (Board.new 4 4) 10 0 ≠ Board.new 4 4 := by
  simp only [Board.kill_at, Board.ensure_cell, Board.writeCell,
    SymVec.extendPosLoop_eq, SymVec.extendNegLoop_eq]
  decide

/-- C4 (amended). `born_at(c)` twice leaves the board in a state identical to
one `born_at(c)` (for every board); and `kill_at(c)` on a coordinate never
born leaves every logical cell state (`get_cell`) and the occupied set
unchanged — though it may extend physical allocation, since `kill_at` calls
`ensure_cell` first. -/
theorem born_idempotent_kill_logical_noop (w h : Nat) (ops : List BOp)
    (col row : Int) (hno : BOp.born col row ∉ ops) :
    (∀ b : Board, (b.born_at col row).born_at col row = b.born_at col row) ∧
    (∀ c r : Int,
      ((applyBOps (Board.new w h) ops).kill_at col row).get_cell c r =
        (applyBOps (Board.new w h) ops).get_cell c r) ∧
    ((applyBOps (Board.new w h) ops).kill_at col row).occupied =
      (applyBOps (Board.new w h) ops).occupied := by
  have hEmpty : (applyBOps (Board.new w h) ops).get_cell col row = Cell.Empty :=
    Board.never_born_get_cell _ _ _ _ (Board.new_get_cell w h col row) hno
  refine ⟨fun b => Board.born_born b col row, ?_, ?_⟩
  · intro c r
    rw [Board.kill_at_get_cell]
    by_cases hcr : c = col ∧ r = row
    · rw [if_pos hcr, hcr.1, hcr.2, hEmpty]
    · rw [if_neg hcr]
  · rw [Board.kill_at_occupied]
    apply Finset.erase_eq_of_not_mem
    intro hmem
    have halive :=
      (Board.applyBOps_inv (Board.new w h) ops (Board.new_inv w h) col row).mp hmem
    unfold Board.is_alive at halive
    rw [hEmpty] at halive
    simp at halive

/-- C4 witness: instantiation with the empty call sequence and coordinate
`(2,3)`. -/
theorem born_idempotent_kill_logical_noop_witness :
    ((applyBOps (Board.new 4 4) []).kill_at 2 3).occupied =
      (applyBOps (Board.new 4 4) []).occupied :=
  (born_idempotent_kill_logical_noop 4 4 [] 2 3 (by simp)).2.2

/-- C5. Sequence indexing: for any sequence of N `push_front`/`push_back`
calls on a fresh `SymVec`, `len()` equals N, a `push_front` call assigns the
logical index equal to the positive side's length at the time of the call
(the number of earlier `push_front` calls), the k-th `push_back` overall
assigns logical index -k, and every appended value remains retrievable at its
assigned index in the final state. -/
theorem symvec_indexing {α : Type} (ops : List (SOp α)) (j : Nat) (a : α)
    (h : j < ops.length) :
    (applySOps SymVec.new ops).len = ops.length ∧
    (applySOps SymVec.new (ops.take j)).len_pos = (ops.take j).countP SOp.isPF ∧
    (applySOps SymVec.new (ops.take j)).len_neg = (ops.take j).countP SOp.isPB ∧
    (ops.get ⟨j, h⟩ = SOp.pfront a →
      (applySOps SymVec.new ops).get (((ops.take j).countP SOp.isPF : Int)) = some a) ∧
    (ops.get ⟨j, h⟩ = SOp.pback a →
      (applySOps SymVec.new ops).get
        (-(((ops.take j).countP SOp.isPB : Int) + 1)) = some a) := by
  refine ⟨?_, ?_, ?_, ?_, ?_⟩
  · unfold SymVec.len
    rw [len_pos_applySOps, len_neg_applySOps]
    have := countP_isPF_add_isPB ops
    simp only [SymVec.new, SymVec.len_pos, SymVec.len_neg, List.length_nil]
    omega
  · rw [len_pos_applySOps]
    simp [SymVec.new, SymVec.len_pos]
  · rw [len_neg_applySOps]
    simp [SymVec.new, SymVec.len_neg]
  · intro hop
    have hmain := (applySOps_get_assigned ops SymVec.new j a h).1 hop
    simpa [SymVec.new, SymVec.len_pos] using hmain
  · intro hop
    have hmain := (applySOps_get_assigned ops SymVec.new j a h).2 hop
    simpa [SymVec.new, SymVec.len_neg] using hmain

/-- C5 witness: the documented example sequence `push_back 10; push_back 20;
push_front 5` has length 3 and the second `push_back` is retrievable at
index -2. -/
theorem symvec_indexing_witness :
    (applySOps SymVec.new [SOp.pback (10 : Int), SOp.pback 20, SOp.pfront 5]).len = 3 ∧
    (applySOps SymVec.new
      [SOp.pback (10 : Int), SOp.pback 20, SOp.pfront 5]).get (-2) = some 20 := by
  have h := symvec_indexing [SOp.pback (10 : Int), SOp.pback 20, SOp.pfront 5]
    1 20 (by decide)
  refine ⟨h.1, ?_⟩
  have h2 := h.2.2.2.2 rfl
  simpa using h2

/-- C6. Growth predicates: `need_extend_pos i` is true exactly when
`i >= len_pos`; `need_extend_neg i` is true exactly when the magnitude of the
(negative) index exceeds `len_neg`; when growth toward positive is needed it
stops being needed exactly after `i - len_pos + 1` further `push_front`
calls, and when growth toward negative is needed it stops being needed
exactly after `-i - len_neg` further `push_back` calls. -/
theorem growth_predicates {α : Type} (v : SymVec α) (i : Int) (es fs : List α) :
    (v.need_extend_pos i = true ↔ (v.len_pos : Int) ≤ i) ∧
    (v.need_extend_neg i = true ↔ (v.len_neg : Int) < -i) ∧
    (v.need_extend_pos i = true →
      ((pushFrontList v es).need_extend_pos i = false ↔
        i - (v.len_pos : Int) + 1 ≤ (es.length : Int))) ∧
    (v.need_extend_neg i = true →
      ((pushBackList v fs).need_extend_neg i = false ↔
        -i - (v.len_neg : Int) ≤ (fs.length : Int))) := by
  refine ⟨?_, ?_, ?_, ?_⟩
  · simp [SymVec.need_extend_pos]
  · simp [SymVec.need_extend_neg]
    omega
  · intro hneed
    simp only [SymVec.need_extend_pos, decide_eq_true_eq] at hneed
    simp only [SymVec.need_extend_pos, len_pos_pushFrontList, decide_eq_false_iff_not,
      not_le, Nat.cast_add]
    omega
  · intro hneed
    simp only [SymVec.need_extend_neg, decide_eq_true_eq] at hneed
    simp only [SymVec.need_extend_neg, len_neg_pushBackList, decide_eq_false_iff_not,
      not_le, Nat.cast_add]
    omega

/-- C6 witness: a one-element positive side needs growth for index 3 and
stops needing it after exactly three `push_front` calls. -/
theorem growth_predicates_witness :
    (pushFrontList (SymVec.mk ([] : List Int) [0]) [7, 8, 9]).need_extend_pos 3
      = false :=
  ((growth_predicates (SymVec.mk ([] : List Int) [0]) 3 [7, 8, 9] []).2.2.1
    (by decide)).mpr (by decide)

/-- C7. Availability and fail-fast indexing: `is_available idx` is true
exactly when indexing the `SymVec` at `idx` succeeds (the panic-free read
returns a value); when it is false, indexing panics (modelled as `none`)
rather than returning a value. -/
theorem availability_fail_fast {α : Type} (v : SymVec α) (idx : Int) :
    (v.is_available idx = true ↔ (v.get idx).isSome = true) ∧
    (v.is_available idx = false → v.get idx = none) :=
  ⟨SymVec.is_available_iff v idx, SymVec.is_available_false v idx⟩

/-- C7 witness: index 5 is unavailable in a vector of positive length 2 and
indexing there panics. -/
theorem availability_fail_fast_witness :
    (SymVec.mk [(-1 : Int)] [1, 2]).get 5 = none :=
  (availability_fail_fast (SymVec.mk [(-1 : Int)] [1, 2]) 5).2 (by decide)

/-- C10. Totality of grid reads: `get_cell` and `is_alive` never panic for
any board and any pair of signed coordinates — the panic-tracking variants
always return `some` of the total functions' results (availability is checked
for the row and then for the column before any raw indexing). -/
theorem get_cell_never_fails (b : Board) (col row : Int) :
    b.get_cellChk col row = some (b.get_cell col row) ∧
    b.is_aliveChk col row = some (b.is_alive col row) :=
  ⟨Board.get_cellChk_some b col row, Board.is_aliveChk_some b col row⟩

/-- C8. Minimal growth: after `ensure_cell(col,row)` the cell is indexable
and the occupied set is untouched; the row sequence's two sides grow to
exactly `max(len, row+1)` / `max(len, -row)` (no growth when already
covered); every other pre-existing row is unchanged and any other newly
created row is an empty fresh row; the addressed row grows to exactly
`max(len, col+1)` / `max(len, -col)` columns, keeping every pre-existing
cell and filling new cells with `Empty`. -/
theorem ensure_cell_minimal_growth (b : Board) (col row : Int) :
    (b.ensure_cell col row).cellAllocated col row = true ∧
    (b.ensure_cell col row).occupied = b.occupied ∧
    (b.ensure_cell col row).cells.len_pos = max b.cells.len_pos (row + 1).toNat ∧
    (b.ensure_cell col row).cells.len_neg = max b.cells.len_neg (-row).toNat ∧
    (∀ r : Int, r ≠ row → (b.cells.get r).isSome = true →
      (b.ensure_cell col row).cells.get r = b.cells.get r) ∧
    (∀ r : Int, r ≠ row → b.cells.get r = none →
      (b.ensure_cell col row).cells.get r = none ∨
        (b.ensure_cell col row).cells.get r = some SymVec.new) ∧
    (∃ rw1, (b.ensure_cell col row).cells.get row = some rw1 ∧
      rw1.len_pos = max ((b.cells.get row).getD SymVec.new).len_pos (col + 1).toNat ∧
      rw1.len_neg = max ((b.cells.get row).getD SymVec.new).len_neg (-col).toNat ∧
      (∀ i : Int, (((b.cells.get row).getD SymVec.new).get i).isSome = true →
        rw1.get i = ((b.cells.get row).getD SymVec.new).get i) ∧
      (∀ i : Int, ((b.cells.get row).getD SymVec.new).get i = none →
        rw1.get i = none ∨ rw1.get i = some Cell.Empty)) :=
  ⟨Board.ensure_cell_allocated b col row, Board.ensure_cell_occupied b col row,
   Board.ensure_cell_len_pos b col row, Board.ensure_cell_len_neg b col row,
   fun r hne hs => Board.ensure_cell_get_ne_of_isSome b col row r hne hs,
   fun r hne hn => Board.ensure_cell_get_ne_of_none b col row r hne hn,
   Board.ensure_cell_get_row_detail b col row⟩

/-- C8 witness: growing a fresh 4x4 board to cell `(5,-2)` extends the
negative row side to 2 rows and leaves the positive side at 4 rows. -/
theorem ensure_cell_minimal_growth_witness :
    ((Board.new 4 4).ensure_cell 5 (-2)).cells.len_pos =
      max (Board.new 4 4).cells.len_pos ((-2 : Int) + 1).toNat ∧
    ((Board.new 4 4).ensure_cell 5 (-2)).cells.len_neg =
      max (Board.new 4 4).cells.len_neg (-(-2 : Int)).toNat :=
  ⟨(ensure_cell_minimal_growth (Board.new 4 4) 5 (-2)).2.2.1,
   (ensure_cell_minimal_growth (Board.new 4 4) 5 (-2)).2.2.2.1⟩

/-- C9. Initial extent: `Board::new(width,height)` has an empty occupied set
and allocates exactly `max(height,4)` rows on the positive side (none on the
negative side), each row holding `max(width,4)` columns, with every cell
`Empty`. -/
theorem board_new_initial_extent (width height : Nat) :
    (Board.new width height).occupied = ∅ ∧
    (Board.new width height).cells.len_pos = max height 4 ∧
    (Board.new width height).cells.len_neg = 0 ∧
    (∀ r : Int, 0 ≤ r → r < ((max height 4 : Nat) : Int) →
      ((Board.new width height).cells.get r).map SymVec.len_pos = some (max width 4) ∧
      ((Board.new width height).cells.get r).map SymVec.len_neg = some 0) ∧
    (∀ c r : Int, (Board.new width height).get_cell c r = Cell.Empty) := by
  refine ⟨rfl, ?_, ?_, ?_, fun c r => Board.new_get_cell width height c r⟩
  · show (Board.allocate (max width 4) (max height 4)).len_pos = max height 4
    rw [Board.allocate_eq]
    simp [SymVec.len_pos]
  · show (Board.allocate (max width 4) (max height 4)).len_neg = 0
    rw [Board.allocate_eq]
    simp [SymVec.len_neg]
  · intro r h0 h1
    show ((Board.allocate (max width 4) (max height 4)).get r).map SymVec.len_pos
        = some (max width 4) ∧
      ((Board.allocate (max width 4) (max height 4)).get r).map SymVec.len_neg
        = some 0
    rw [Board.allocate_eq]
    unfold SymVec.get
    rw [if_neg (by omega), List.getElem?_replicate, if_pos (by omega)]
    constructor
    · simp [SymVec.len_pos]
    · simp [SymVec.len_neg]

/-- C9 witness: `Board::new(10,2)` clamps the height to 4 and keeps the width
10; row 0 has positive length 10 and negative length 0. -/
theorem board_new_initial_extent_witness :
    ((Board.new 10 2).cells.get 0).map SymVec.len_pos = some 10 ∧
    ((Board.new 10 2).cells.get 0).map SymVec.len_neg = some 0 := by
  have h9 := (board_new_initial_extent 10 2).2.2.2.1 0 (by decide) (by decide)
  simpa using h9
